import Mathlib

/-!
Shallow embedding of the TimeSide grapher core (`src/grapher/core.py`) and
verification of its specification claims.

Conventions of the embedding:
- Python floats are modelled as exact rationals (`ℚ`) where the source only
  performs field arithmetic and comparisons (every Python float is a rational
  number), and as real numbers (`ℝ`) where the source uses transcendental
  functions (`math.log10`, `math.pow`, `numpy.fft`).
- Python `int(x)` (truncation toward zero) is `pyInt` / `pyIntQ`.
- Fallible code (exceptions such as `ZeroDivisionError`, `IndexError`) is
  modelled with `Option`: `none` means the Python code raises.
- `numpy.fft.fft` is the unnormalised discrete Fourier transform
  `X_k = Σ_n x_n · exp(-2πi·k·n/N)`; `numpy.argmax` / `numpy.argmin` return
  the first index attaining the maximum / minimum.
-/

namespace TimeSide

/-- Python `int()` on a real number: truncation toward zero. -/
noncomputable def pyInt (x : ℝ) : ℤ :=
  if x < 0 then -⌊-x⌋ else ⌊x⌋

/-- Python `int()` on a rational number: truncation toward zero (computable). -/
def pyIntQ (x : ℚ) : ℤ :=
  if x < 0 then -⌊-x⌋ else ⌊x⌋

/-- The `clip` lambda of `SpectralCentroid.__init__` (line 64):
`lambda val, low, high: min(high, max(low, val))`.  `numpy.ndarray.clip`
with bounds `(low, high)` computes the same function pointwise. -/
noncomputable def pyClip (val low high : ℝ) : ℝ :=
  min high (max low val)

/-- The silence threshold `1e-20` of `SpectralCentroid.process` (line 86). -/
noncomputable def silenceThreshold : ℝ := (10 : ℝ) ^ (-20 : ℤ)

/-- The additive epsilon `1e-30` of the dB compression (line 82). -/
noncomputable def logEpsilon : ℝ := (10 : ℝ) ^ (-30 : ℤ)

/-- Discrete Fourier transform as computed by `numpy.fft.fft`:
`X_k = Σ_n x_n · exp(-2πi·k·n/N)` for a frame of `N` real samples.
The index `k` ranges over `ℕ`; for `k < N` this is exactly entry `k` of
`numpy.fft.fft(x)`. -/
noncomputable def dft (N : ℕ) (x : Fin N → ℝ) (k : ℕ) : ℂ :=
  ∑ i : Fin N, (x i : ℂ) * Complex.exp (-(2 * Real.pi * Complex.I * k * i) / N)

/-- Raw normalised magnitude spectrum of `SpectralCentroid.process` (lines
76-78): the frame is multiplied pointwise by the window, transformed, and
`spectrum[k] = abs(fft[k]) / fft_size` is taken for `k < fft_size/2 + 1`. -/
noncomputable def rawSpectrum (N : ℕ) (w x : Fin N → ℝ) (k : ℕ) : ℝ :=
  Complex.abs (dft N (fun i => x i * w i) k) / N

/-- Total energy `spectrum.sum()` over the `fft_size/2 + 1` retained bins
(line 83). -/
noncomputable def spectrumEnergy (N : ℕ) (w x : Fin N → ℝ) : ℝ :=
  ∑ k ∈ Finset.range (N / 2 + 1), rawSpectrum N w x k

/-- One entry of the dB-compressed spectrum (line 82):
`((20*log10(spectrum + 1e-30)).clip(-spec_range, 0.0) + spec_range)/spec_range`. -/
noncomputable def dbSpectrumEntry (N : ℕ) (w x : Fin N → ℝ) (specRange : ℝ) (k : ℕ) : ℝ :=
  (pyClip (20 * Real.logb 10 (rawSpectrum N w x k + logEpsilon)) (-specRange) 0 + specRange)
    / specRange

/-- The unclipped spectral centroid in Hz (line 91):
`(spectrum * arange(length)).sum() / (energy * (length - 1)) * samplerate * 0.5`. -/
noncomputable def spectralCentroidRaw (N : ℕ) (samplerate : ℝ) (w x : Fin N → ℝ) : ℝ :=
  (∑ k ∈ Finset.range (N / 2 + 1), rawSpectrum N w x k * k)
    / (spectrumEnergy N w x * (((N / 2 + 1 : ℕ) : ℝ) - 1)) * samplerate * 0.5

/-- The centroid value returned by `SpectralCentroid.process` (lines 84-93):
`0` when the total energy is at most `1e-20`, otherwise the raw centroid is
clipped to `[lower, higher] = [100, 22050]`, passed through `log10` and mapped
affinely onto `[0, 1]`. -/
noncomputable def spectralCentroidValue (N : ℕ) (samplerate : ℝ) (w x : Fin N → ℝ) : ℝ :=
  if spectrumEnergy N w x > silenceThreshold then
    (Real.logb 10 (pyClip (spectralCentroidRaw N samplerate w x) 100 22050) - Real.logb 10 100)
      / (Real.logb 10 22050 - Real.logb 10 100)
  else 0

/-- Result of `SpectralCentroid.process` on one frame of exactly `fft_size`
samples (lines 70-95): the pair `(spectral_centroid, db_spectrum)`.
The `FixedSizeInputAdapter` (external `timeside.core`, constructed with
`pad=True`) passes a buffer of exactly `fft_size` samples through unchanged,
so `process` receives the frame itself; `w` is the window built in
`__init__` and `x` the frame. -/
noncomputable def SpectralCentroid.process (N : ℕ) (samplerate : ℝ) (w x : Fin N → ℝ)
    (specRange : ℝ) : ℝ × List ℝ :=
  (spectralCentroidValue N samplerate w x,
    (List.range (N / 2 + 1)).map (dbSpectrumEntry N w x specRange))

/-! Basic facts about the embedded primitives. -/

theorem pyClip_le_high (val low high : ℝ) : pyClip val low high ≤ high :=
  min_le_left _ _

theorem low_le_pyClip (val low high : ℝ) (h : low ≤ high) : low ≤ pyClip val low high :=
  le_min h (le_max_left _ _)

theorem silenceThreshold_pos : 0 < silenceThreshold :=
  zpow_pos (by norm_num) _

theorem logb_logEpsilon : Real.logb 10 logEpsilon = -30 := by
  have h : logEpsilon = (10 : ℝ) ^ ((-30 : ℤ) : ℝ) := by
    rw [logEpsilon, Real.rpow_intCast]
  rw [h, Real.logb_rpow (by norm_num) (by norm_num)]
  norm_num

theorem rawSpectrum_zero_frame (N : ℕ) (w : Fin N → ℝ) (k : ℕ) :
    rawSpectrum N w (fun _ => 0) k = 0 := by
  simp [rawSpectrum, dft]

theorem spectrumEnergy_zero_frame (N : ℕ) (w : Fin N → ℝ) :
    spectrumEnergy N w (fun _ => 0) = 0 := by
  simp [spectrumEnergy, rawSpectrum_zero_frame]

theorem dbSpectrumEntry_zero_frame (N : ℕ) (w : Fin N → ℝ) (k : ℕ) :
    dbSpectrumEntry N w (fun _ => 0) 120 k = 0 := by
  rw [dbSpectrumEntry, rawSpectrum_zero_frame, zero_add, logb_logEpsilon]
  norm_num [pyClip]

/-- C9: `SpectralCentroid.process` applied to an all-zero frame (with the
default dynamic range 120 dB) returns centroid 0 — the silence sentinel,
since the total energy 0 is not above `1e-20` — and a spectrum all of whose
`N/2 + 1` entries are 0; the embedding is a total function, so no log-domain
error occurs (`log10` is only ever applied to `0 + 1e-30 > 0`). -/
theorem claim_C9_silent_frame (N : ℕ) (samplerate : ℝ) (w : Fin N → ℝ) :
    SpectralCentroid.process N samplerate w (fun _ => 0) 120 =
      (0, List.replicate (N / 2 + 1) 0) := by
  unfold SpectralCentroid.process
  refine Prod.ext ?_ ?_
  · show spectralCentroidValue N samplerate w (fun _ => 0) = 0
    rw [spectralCentroidValue, spectrumEnergy_zero_frame,
      if_neg (by exact not_lt.mpr silenceThreshold_pos.le)]
  · show (List.range (N / 2 + 1)).map (dbSpectrumEntry N w (fun _ => 0) 120) = _
    have h : ∀ k ∈ List.range (N / 2 + 1),
        dbSpectrumEntry N w (fun _ => 0) 120 k = (fun _ : ℕ => (0 : ℝ)) k := by
      intro k _
      exact dbSpectrumEntry_zero_frame N w k
    rw [List.map_congr_left h, List.map_const', List.length_range]

theorem dbSpectrumEntry_mem_unitInterval (N : ℕ) (w x : Fin N → ℝ) (specRange : ℝ)
    (hr : 0 < specRange) (k : ℕ) :
    0 ≤ dbSpectrumEntry N w x specRange k ∧ dbSpectrumEntry N w x specRange k ≤ 1 := by
  rw [dbSpectrumEntry]
  have h1 : -specRange ≤ pyClip (20 * Real.logb 10 (rawSpectrum N w x k + logEpsilon))
      (-specRange) 0 := low_le_pyClip _ _ _ (by linarith)
  have h2 : pyClip (20 * Real.logb 10 (rawSpectrum N w x k + logEpsilon))
      (-specRange) 0 ≤ 0 := pyClip_le_high _ _ _
  constructor
  · apply div_nonneg _ hr.le
    linarith
  · rw [div_le_one hr]
    linarith

theorem spectralCentroidValue_mem_unitInterval (N : ℕ) (samplerate : ℝ) (w x : Fin N → ℝ) :
    0 ≤ spectralCentroidValue N samplerate w x ∧ spectralCentroidValue N samplerate w x ≤ 1 := by
  rw [spectralCentroidValue]
  split
  · have hlow : (100 : ℝ) ≤ pyClip (spectralCentroidRaw N samplerate w x) 100 22050 :=
      low_le_pyClip _ _ _ (by norm_num)
    have hhigh : pyClip (spectralCentroidRaw N samplerate w x) 100 22050 ≤ 22050 :=
      pyClip_le_high _ _ _
    have hnum0 : Real.logb 10 100 ≤
        Real.logb 10 (pyClip (spectralCentroidRaw N samplerate w x) 100 22050) :=
      Real.logb_le_logb_of_le (by norm_num) (by norm_num) hlow
    have hnum1 : Real.logb 10 (pyClip (spectralCentroidRaw N samplerate w x) 100 22050) ≤
        Real.logb 10 22050 :=
      Real.logb_le_logb_of_le (by norm_num) (by linarith) hhigh
    have hden : Real.logb 10 100 < Real.logb 10 22050 :=
      Real.logb_lt_logb (by norm_num) (by norm_num) (by norm_num)
    constructor
    · apply div_nonneg (by linarith) (by linarith)
    · rw [div_le_one (by linarith)]
      linarith
  · exact ⟨le_refl 0, zero_le_one⟩

/-- C7: for every input frame, `SpectralCentroid.process` returns a pair
`(centroid, spectrum)` where the spectrum has exactly `fft_size/2 + 1`
entries, each entry lies in `[0, 1]` (the dB-compressed values
`clip(20*log10(mag + 1e-30), -range, 0)` shifted by `range` and divided by
`range`), and the centroid lies in `[0, 1]`. -/
theorem claim_C7_process_ranges (N : ℕ) (samplerate : ℝ) (w x : Fin N → ℝ)
    (specRange : ℝ) (hr : 0 < specRange) :
    (SpectralCentroid.process N samplerate w x specRange).2.length = N / 2 + 1 ∧
    (∀ v ∈ (SpectralCentroid.process N samplerate w x specRange).2, 0 ≤ v ∧ v ≤ 1) ∧
    0 ≤ (SpectralCentroid.process N samplerate w x specRange).1 ∧
    (SpectralCentroid.process N samplerate w x specRange).1 ≤ 1 := by
  refine ⟨by simp [SpectralCentroid.process], ?_, ?_⟩
  · intro v hv
    simp only [SpectralCentroid.process, List.mem_map, List.mem_range] at hv
    obtain ⟨k, -, rfl⟩ := hv
    exact dbSpectrumEntry_mem_unitInterval N w x specRange hr k
  · exact spectralCentroidValue_mem_unitInterval N samplerate w x

/-- Witness for C7 at a concrete input. -/
theorem claim_C7_process_ranges_witness :
    (0 : ℝ) < 120 ∧
    (SpectralCentroid.process 2 44100 (fun _ => 1) ![1, 0] 120).2.length = 2 / 2 + 1 :=
  ⟨by norm_num,
    (claim_C7_process_ranges 2 44100 (fun _ => 1) ![1, 0] 120 (by norm_num)).1⟩

/-! Scaling behaviour of the spectral pipeline (claim C1). -/

theorem dft_smul (N : ℕ) (x : Fin N → ℝ) (c : ℝ) (k : ℕ) :
    dft N (fun i => c * x i) k = (c : ℂ) * dft N x k := by
  unfold dft
  rw [Finset.mul_sum]
  refine Finset.sum_congr rfl fun i _ => ?_
  push_cast
  ring

theorem rawSpectrum_smul (N : ℕ) (w x : Fin N → ℝ) (c : ℝ) (hc : 0 ≤ c) (k : ℕ) :
    rawSpectrum N w (fun i => c * x i) k = c * rawSpectrum N w x k := by
  unfold rawSpectrum
  have h : (fun i => (c * x i) * w i) = fun i => c * (x i * w i) := by
    funext i; ring
  rw [h, dft_smul, map_mul, Complex.abs_ofReal, abs_of_nonneg hc, mul_div_assoc]

theorem spectrumEnergy_smul (N : ℕ) (w x : Fin N → ℝ) (c : ℝ) (hc : 0 ≤ c) :
    spectrumEnergy N w (fun i => c * x i) = c * spectrumEnergy N w x := by
  unfold spectrumEnergy
  rw [Finset.mul_sum]
  exact Finset.sum_congr rfl fun k _ => rawSpectrum_smul N w x c hc k

theorem spectralCentroidRaw_smul (N : ℕ) (samplerate : ℝ) (w x : Fin N → ℝ) (c : ℝ)
    (hc : 0 < c) :
    spectralCentroidRaw N samplerate w (fun i => c * x i) =
      spectralCentroidRaw N samplerate w x := by
  unfold spectralCentroidRaw
  rw [spectrumEnergy_smul N w x c hc.le]
  have hnum : (∑ k ∈ Finset.range (N / 2 + 1), rawSpectrum N w (fun i => c * x i) k * k) =
      c * ∑ k ∈ Finset.range (N / 2 + 1), rawSpectrum N w x k * k := by
    rw [Finset.mul_sum]
    refine Finset.sum_congr rfl fun k _ => ?_
    rw [rawSpectrum_smul N w x c hc.le, mul_assoc]
  rw [hnum, mul_assoc c (spectrumEnergy N w x) _, mul_div_mul_left _ _ hc.ne']

/-- C1 (amended): for every frame `x`, window, sample rate and positive scalar
`k`, `SpectralCentroid.process` applied to `k*x` returns the same centroid as
applied to `x`, provided the scaling does not cross the silence threshold —
the total spectral energy of `x` exceeds `1e-20` if and only if that of `k*x`
does.  (Without that proviso the claim is false: see the counterexample.) -/
theorem claim_C1_scaling_amended (N : ℕ) (samplerate : ℝ) (w x : Fin N → ℝ)
    (k : ℝ) (specRange : ℝ) (hk : 0 < k)
    (hthr : spectrumEnergy N w x > silenceThreshold ↔
      spectrumEnergy N w (fun i => k * x i) > silenceThreshold) :
    (SpectralCentroid.process N samplerate w (fun i => k * x i) specRange).1 =
      (SpectralCentroid.process N samplerate w x specRange).1 := by
  show spectralCentroidValue N samplerate w (fun i => k * x i) =
    spectralCentroidValue N samplerate w x
  unfold spectralCentroidValue
  by_cases h : spectrumEnergy N w x > silenceThreshold
  · rw [if_pos (hthr.mp h), if_pos h, spectralCentroidRaw_smul N samplerate w x k hk]
  · rw [if_neg (fun hcon => h (hthr.mpr hcon)), if_neg h]

/-- Concrete evaluation of the DFT on the two-sample frame `[c, 0]` with the
all-ones window: only the `i = 0` term contributes and its phase is zero. -/
theorem dft_pair_single (c : ℝ) (k : ℕ) :
    dft 2 (fun i => (![c, 0] : Fin 2 → ℝ) i * (fun _ : Fin 2 => (1 : ℝ)) i) k = (c : ℂ) := by
  rw [dft, Fin.sum_univ_two]
  simp

theorem rawSpectrum_pair_single (c : ℝ) (k : ℕ) :
    rawSpectrum 2 (fun _ => 1) ![c, 0] k = |c| / 2 := by
  rw [rawSpectrum, dft_pair_single, Complex.abs_ofReal]
  norm_num

theorem spectrumEnergy_pair_single (c : ℝ) :
    spectrumEnergy 2 (fun _ => 1) ![c, 0] = |c| := by
  rw [spectrumEnergy]
  rw [show (2 : ℕ) / 2 + 1 = 2 from rfl, Finset.sum_range_succ, Finset.sum_range_one,
    rawSpectrum_pair_single, rawSpectrum_pair_single]
  ring

theorem spectralCentroidRaw_pair_single (c : ℝ) (hc : c ≠ 0) (samplerate : ℝ) :
    spectralCentroidRaw 2 samplerate (fun _ => 1) ![c, 0] = samplerate / 4 := by
  rw [spectralCentroidRaw, spectrumEnergy_pair_single]
  rw [show (2 : ℕ) / 2 + 1 = 2 from rfl, Finset.sum_range_succ, Finset.sum_range_one,
    rawSpectrum_pair_single, rawSpectrum_pair_single]
  have habs : |c| ≠ 0 := abs_ne_zero.mpr hc
  field_simp
  ring

theorem scaled_pair_frame :
    (fun i => (10 : ℝ) ^ (20 : ℤ) * (![(10 : ℝ) ^ (-20 : ℤ), 0] : Fin 2 → ℝ) i) =
      (![1, 0] : Fin 2 → ℝ) := by
  funext i
  fin_cases i
  · show (10 : ℝ) ^ (20 : ℤ) * (10 : ℝ) ^ (-20 : ℤ) = 1
    rw [← zpow_add₀ (by norm_num : (10 : ℝ) ≠ 0)]
    norm_num
  · show (10 : ℝ) ^ (20 : ℤ) * 0 = 0
    ring

/-- Counterexample to C1 as stated: scaling the near-silent two-sample frame
`x = [1e-20, 0]` by `k = 1e20` changes the centroid.  The energy of `x` is
exactly `1e-20`, which is not above the silence threshold, so `process x`
returns the sentinel 0; the energy of `k*x` is 1, so `process (k*x)` takes
the non-silent branch and returns a strictly positive centroid. -/
theorem claim_C1_counterexample :
    (SpectralCentroid.process 2 44100 (fun _ => 1)
        (fun i => (10 : ℝ) ^ (20 : ℤ) * (![(10 : ℝ) ^ (-20 : ℤ), 0] : Fin 2 → ℝ) i) 120).1 ≠
      (SpectralCentroid.process 2 44100 (fun _ => 1) ![(10 : ℝ) ^ (-20 : ℤ), 0] 120).1 := by
  show spectralCentroidValue 2 44100 (fun _ => 1) _ ≠ spectralCentroidValue 2 44100 (fun _ => 1) _
  rw [scaled_pair_frame]
  have hrhs : spectralCentroidValue 2 44100 (fun _ => 1) ![(10 : ℝ) ^ (-20 : ℤ), 0] = 0 := by
    rw [spectralCentroidValue, spectrumEnergy_pair_single]
    rw [if_neg]
    rw [abs_of_pos (by positivity), silenceThreshold]
    exact lt_irrefl _
  have hlhs : 0 < spectralCentroidValue 2 44100 (fun _ => 1) ![1, 0] := by
    rw [spectralCentroidValue, spectrumEnergy_pair_single]
    rw [if_pos]
    · rw [spectralCentroidRaw_pair_single 1 one_ne_zero]
      have hclip : pyClip ((44100 : ℝ) / 4) 100 22050 = 11025 := by
        rw [pyClip]
        norm_num
      rw [hclip]
      apply div_pos
      · have := Real.logb_lt_logb (b := 10) (by norm_num) (by norm_num : (0:ℝ) < 100)
          (by norm_num : (100:ℝ) < 11025)
        linarith
      · have := Real.logb_lt_logb (b := 10) (by norm_num) (by norm_num : (0:ℝ) < 100)
          (by norm_num : (100:ℝ) < 22050)
        linarith
    · rw [abs_one, silenceThreshold]
      have h1 : (10 : ℝ) ^ (-20 : ℤ) < 1 := by
        rw [show ((10 : ℝ) ^ (-20 : ℤ)) = ((10 : ℝ) ^ (20 : ℤ))⁻¹ by
          rw [← zpow_neg]]
        rw [inv_lt_one_iff₀]
        right
        norm_num
      exact h1
  rw [hrhs]
  exact ne_of_gt hlhs

/-- Witness for the amended C1 at a concrete input: frame `[1, 0]`, scalar 2. -/
theorem claim_C1_scaling_amended_witness :
    (0 : ℝ) < 2 ∧
    (SpectralCentroid.process 2 44100 (fun _ => 1)
        (fun i => 2 * (![1, 0] : Fin 2 → ℝ) i) 120).1 =
      (SpectralCentroid.process 2 44100 (fun _ => 1) ![1, 0] 120).1 := by
  refine ⟨by norm_num, ?_⟩
  refine claim_C1_scaling_amended 2 44100 (fun _ => 1) ![1, 0] 2 120 (by norm_num) ?_
  have h2 : (fun i => 2 * (![1, 0] : Fin 2 → ℝ) i) = (![2, 0] : Fin 2 → ℝ) := by
    funext i
    fin_cases i
    · show (2 : ℝ) * 1 = 2; ring
    · show (2 : ℝ) * 0 = 0; ring
  rw [h2, spectrumEnergy_pair_single, spectrumEnergy_pair_single]
  have hthr1 : silenceThreshold < 1 := by
    rw [silenceThreshold]
    rw [show ((10 : ℝ) ^ (-20 : ℤ)) = ((10 : ℝ) ^ (20 : ℤ))⁻¹ by rw [← zpow_neg]]
    rw [inv_lt_one_iff₀]
    right
    norm_num
  constructor
  · intro _
    rw [abs_of_pos (by norm_num : (0:ℝ) < 2)]
    linarith
  · intro _
    rw [abs_one]
    exact hthr1

/-! Colour palette interpolation (`interpolate_colors`, lines 98-125) and the
renderer constructors (claims C4, C5). -/

/-- Python list indexing `l[i]`, including negative-index wraparound;
`none` models an `IndexError`. -/
def pyGet {α : Type} (l : List α) (i : ℤ) : Option α :=
  if 0 ≤ i then l[i.toNat]?
  else if (-i).toNat ≤ l.length then l[(l.length - (-i).toNat)]? else none

/-- Loop body of `interpolate_colors` (lines 106-123) at output index `i`:
`index = (i * (len(colors) - 1))/(num_colors - 1.0)`, `index_int = int(index)`,
`alpha = index - index_int`; when `alpha > 0` interpolate between
`colors[index_int]` and `colors[index_int + 1]`, otherwise scale
`colors[index_int]` by `1 - alpha` alone.  `none` models an `IndexError`
from a list access. -/
def interpolateColorsEntry (colors : List (ℤ × ℤ × ℤ)) (num_colors : ℕ) (i : ℕ) :
    Option (ℤ × ℤ × ℤ) :=
  let index : ℚ := ((i : ℚ) * ((colors.length : ℚ) - 1)) / ((num_colors : ℚ) - 1)
  let index_int : ℤ := pyIntQ index
  let alpha : ℚ := index - index_int
  if alpha > 0 then do
    let c ← pyGet colors index_int
    let c2 ← pyGet colors (index_int + 1)
    pure (pyIntQ ((1 - alpha) * c.1 + alpha * c2.1),
          pyIntQ ((1 - alpha) * c.2.1 + alpha * c2.2.1),
          pyIntQ ((1 - alpha) * c.2.2 + alpha * c2.2.2))
  else do
    let c ← pyGet colors index_int
    pure (pyIntQ ((1 - alpha) * c.1),
          pyIntQ ((1 - alpha) * c.2.1),
          pyIntQ ((1 - alpha) * c.2.2))

/-- The function `interpolate_colors(colors, flat=False, num_colors)` of lines
98-125, producing `(r, g, b)` tuples.  `none` models an exception: a
`ZeroDivisionError` when `num_colors = 1` (the divisor `num_colors - 1.0` is
zero and the loop body runs), or an `IndexError` from a `colors[...]` access
inside the loop. -/
def interpolate_colors (colors : List (ℤ × ℤ × ℤ)) (num_colors : ℕ) :
    Option (List (ℤ × ℤ × ℤ)) :=
  if num_colors = 1 then none
  else (List.range num_colors).mapM (interpolateColorsEntry colors num_colors)

/-- Entry `i` of the palette as the specification describes it: with
`t = i*(len(colors)-1)/(num_colors-1)`, truncate the linear interpolation
between `colors[⌊t⌋]` and `colors[⌊t⌋ + 1]` taken with weight `fract t`
(when `fract t = 0` the second anchor does not contribute and is defaulted). -/
def paletteEntry (colors : List (ℤ × ℤ × ℤ)) (num_colors : ℕ) (i : ℕ) : ℤ × ℤ × ℤ :=
  let t : ℚ := ((i : ℚ) * ((colors.length : ℚ) - 1)) / ((num_colors : ℚ) - 1)
  let a : ℚ := Int.fract t
  let c := colors.getD (⌊t⌋).toNat (0, 0, 0)
  let c2 := colors.getD ((⌊t⌋).toNat + 1) (0, 0, 0)
  (pyIntQ ((1 - a) * c.1 + a * c2.1),
   pyIntQ ((1 - a) * c.2.1 + a * c2.2.1),
   pyIntQ ((1 - a) * c.2.2 + a * c2.2.2))

/-- The `'default'` waveform anchor colours (line 36). -/
def waveformDefaultColors : List (ℤ × ℤ × ℤ) :=
  [(50, 0, 200), (0, 220, 80), (255, 224, 0), (255, 0, 0)]

/-- The `'default'` spectrogram anchor colours (lines 37-38); `58/4` etc. are
Python 2 integer divisions. -/
def spectrogramDefaultColors : List (ℤ × ℤ × ℤ) :=
  [(0, 0, 0), (14, 17, 16), (40, 50, 76), (90, 180, 100),
   (224, 224, 44), (255, 60, 30), (255, 255, 255)]

/-- Failure-relevant behaviour of `WaveformImage.__init__` (lines 130-159):
the colour lookup is built first (line 147), then
`samples_per_pixel = nframes / float(image_width)` (line 149) raises
`ZeroDivisionError` iff `image_width = 0`.  The result carries
`samples_per_pixel` and the colour lookup; `none` models an exception
escaping the constructor. -/
def WaveformImage.init (image_width nframes : ℕ) (colors : List (ℤ × ℤ × ℤ)) :
    Option (ℚ × List (ℤ × ℤ × ℤ)) := do
  let lookup ← interpolate_colors colors 256
  if image_width = 0 then none
  else pure ((nframes : ℚ) / (image_width : ℚ), lookup)

/-- The fractional FFT bin for output row `y` of the spectrogram (lines
277-278): `freq = 10**(log10(100) + y/(image_height-1)*(log10(22050)-log10(100)))`
and `bin = freq / 22050.0 * (fft_size/2 + 1)` (the last factor uses Python 2
integer division). -/
noncomputable def binValue (image_height fft_size : ℕ) (y : ℕ) : ℝ :=
  (10 : ℝ) ^ (Real.logb 10 100 + (y : ℝ) / ((image_height : ℝ) - 1) *
      (Real.logb 10 22050 - Real.logb 10 100)) / 22050 * ((fft_size / 2 + 1 : ℕ) : ℝ)

/-- The precomputed `y_to_bin` lookup of `SpectrogramImage.__init__` (lines
270-283): for each row `y` with `bin < fft_size/2` (integer division), store
`(int(bin), alpha * 255)` where `alpha = bin - int(bin)`; other rows store
nothing. -/
noncomputable def spectrogramYToBin (image_height fft_size : ℕ) : List (ℤ × ℝ) :=
  (List.range image_height).filterMap (fun y =>
    let bin := binValue image_height fft_size y
    if bin < ((fft_size / 2 : ℕ) : ℝ) then
      some (pyInt bin, (bin - pyInt bin) * 255)
    else none)

/-- Failure-relevant behaviour of `SpectrogramImage.__init__` (lines 253-288):
the palette is built first (line 268), then the `y_to_bin` loop divides by
`image_height - 1.0`, raising `ZeroDivisionError` iff the loop body runs with
a zero divisor, i.e. iff `image_height = 1` (for `image_height = 0` the loop
body never runs).  `none` models an exception escaping the constructor. -/
noncomputable def SpectrogramImage.init (image_width image_height fft_size : ℕ)
    (colors : List (ℤ × ℤ × ℤ)) : Option (List (ℤ × ℤ × ℤ) × List (ℤ × ℝ)) := do
  let palette ← interpolate_colors colors 256
  if image_height = 1 then none
  else pure (palette, spectrogramYToBin image_height fft_size)

theorem pyIntQ_of_nonneg (x : ℚ) (h : 0 ≤ x) : pyIntQ x = ⌊x⌋ :=
  if_neg (not_lt.mpr h)

theorem pyIntQ_intCast (m : ℤ) : pyIntQ (m : ℚ) = m := by
  rw [pyIntQ]
  split
  · rw [← Int.cast_neg, Int.floor_intCast, neg_neg]
  · exact Int.floor_intCast m

theorem mapM_option_const {α β : Type} (l : List α) (f : α → Option β) (g : α → β)
    (h : ∀ a ∈ l, f a = some (g a)) : l.mapM f = some (l.map g) := by
  induction l with
  | nil => rfl
  | cons a t ih =>
    rw [List.mapM_cons, h a (List.mem_cons_self a t),
      ih (fun b hb => h b (List.mem_cons_of_mem a hb))]
    rfl

theorem interpolateColorsEntry_eq (colors : List (ℤ × ℤ × ℤ)) (hL : 2 ≤ colors.length)
    (i : ℕ) (hi : i < 256) :
    interpolateColorsEntry colors 256 i = some (paletteEntry colors 256 i) := by
  have hL1 : (1 : ℚ) ≤ (colors.length : ℚ) - 1 := by
    have h2 : (2 : ℚ) ≤ (colors.length : ℚ) := by exact_mod_cast hL
    linarith
  set t : ℚ := ((i : ℚ) * ((colors.length : ℚ) - 1)) / ((256 : ℚ) - 1) with hts
  have ht0 : 0 ≤ t := by
    apply div_nonneg (mul_nonneg (Nat.cast_nonneg i) (by linarith)) (by norm_num)
  have ht1 : t ≤ (colors.length : ℚ) - 1 := by
    rw [hts, div_le_iff₀ (by norm_num : (0 : ℚ) < 256 - 1)]
    have hi2 : (i : ℚ) ≤ 255 := by exact_mod_cast Nat.lt_succ_iff.mp hi
    nlinarith
  have hfloor0 : 0 ≤ ⌊t⌋ := Int.floor_nonneg.mpr ht0
  have hfloor1 : ⌊t⌋ ≤ (colors.length : ℤ) - 1 := by
    have h1 : ⌊t⌋ ≤ ⌊(colors.length : ℚ) - 1⌋ := Int.floor_le_floor ht1
    rwa [show ((colors.length : ℚ) - 1) = (((colors.length : ℤ) - 1 : ℤ) : ℚ) by push_cast; ring,
      Int.floor_intCast] at h1
  have hnat1 : (⌊t⌋).toNat < colors.length := by omega
  have hget1 : pyGet colors ⌊t⌋ = some (colors.getD (⌊t⌋).toNat (0, 0, 0)) := by
    rw [pyGet, if_pos hfloor0, List.getElem?_eq_getElem hnat1, List.getD_eq_getElem _ _ hnat1]
  rw [interpolateColorsEntry, paletteEntry]
  simp only [Nat.cast_ofNat, ← hts, pyIntQ_of_nonneg t ht0]
  by_cases hα : 0 < t - (⌊t⌋ : ℚ)
  · have hlt : ⌊t⌋ < (colors.length : ℤ) - 1 := by
      rcases lt_or_eq_of_le hfloor1 with h | h
      · exact h
      · exfalso
        have : t - (⌊t⌋ : ℚ) ≤ 0 := by
          rw [h]
          push_cast
          linarith
        linarith
    have hnat2 : (⌊t⌋).toNat + 1 < colors.length := by omega
    have hget2 : pyGet colors (⌊t⌋ + 1) = some (colors.getD ((⌊t⌋).toNat + 1) (0, 0, 0)) := by
      rw [pyGet, if_pos (by omega), show (⌊t⌋ + 1).toNat = (⌊t⌋).toNat + 1 by omega,
        List.getElem?_eq_getElem hnat2, List.getD_eq_getElem _ _ hnat2]
    rw [if_pos hα, hget1, hget2]
    rfl
  · rw [if_neg hα, hget1]
    have h0 : t - (⌊t⌋ : ℚ) = 0 :=
      le_antisymm (not_lt.mp hα) (Int.fract_nonneg t)
    simp only [Option.bind_some, Option.some_bind, Option.bind_eq_bind]
    rw [show Int.fract t = t - (⌊t⌋ : ℚ) from rfl, h0]
    norm_num

theorem interpolate_colors_eq_map (colors : List (ℤ × ℤ × ℤ)) (hL : 2 ≤ colors.length) :
    interpolate_colors colors 256 =
      some ((List.range 256).map (paletteEntry colors 256)) := by
  rw [interpolate_colors, if_neg (by norm_num : (256 : ℕ) ≠ 1)]
  exact mapM_option_const _ _ _
    (fun i hi => interpolateColorsEntry_eq colors hL i (List.mem_range.mp hi))

/-- All three components of an RGB triple lie in `[0, 255]`. -/
def rgbInRange (c : ℤ × ℤ × ℤ) : Prop :=
  0 ≤ c.1 ∧ c.1 ≤ 255 ∧ 0 ≤ c.2.1 ∧ c.2.1 ≤ 255 ∧ 0 ≤ c.2.2 ∧ c.2.2 ≤ 255

theorem getD_rgbInRange (colors : List (ℤ × ℤ × ℤ)) (hc : ∀ c ∈ colors, rgbInRange c)
    (n : ℕ) : rgbInRange (colors.getD n (0, 0, 0)) := by
  by_cases h : n < colors.length
  · rw [List.getD_eq_getElem _ _ h]
    exact hc _ (List.getElem_mem h)
  · rw [List.getD_eq_default _ _ (le_of_not_lt h)]
    refine ⟨le_refl 0, by norm_num, le_refl 0, by norm_num, le_refl 0, by norm_num⟩

theorem pyIntQ_convex_bounds (a u1 u2 : ℚ) (ha0 : 0 ≤ a) (ha1 : a < 1)
    (h10 : 0 ≤ u1) (h1255 : u1 ≤ 255) (h20 : 0 ≤ u2) (h2255 : u2 ≤ 255) :
    0 ≤ pyIntQ ((1 - a) * u1 + a * u2) ∧ pyIntQ ((1 - a) * u1 + a * u2) ≤ 255 := by
  have hv0 : 0 ≤ (1 - a) * u1 + a * u2 := by nlinarith
  have hv255 : (1 - a) * u1 + a * u2 ≤ 255 := by nlinarith
  rw [pyIntQ_of_nonneg _ hv0]
  constructor
  · exact Int.floor_nonneg.mpr hv0
  · have h := Int.floor_le_floor hv255
    rwa [show (255 : ℚ) = ((255 : ℤ) : ℚ) by norm_num, Int.floor_intCast] at h

theorem paletteEntry_inRange (colors : List (ℤ × ℤ × ℤ)) (hc : ∀ c ∈ colors, rgbInRange c)
    (num_colors i : ℕ) : rgbInRange (paletteEntry colors num_colors i) := by
  rw [paletteEntry]
  set t : ℚ := ((i : ℚ) * ((colors.length : ℚ) - 1)) / ((num_colors : ℚ) - 1)
  have ha0 : 0 ≤ Int.fract t := Int.fract_nonneg t
  have ha1 : Int.fract t < 1 := Int.fract_lt_one t
  obtain ⟨p1, p2, p3, p4, p5, p6⟩ := getD_rgbInRange colors hc (⌊t⌋).toNat
  obtain ⟨q1, q2, q3, q4, q5, q6⟩ := getD_rgbInRange colors hc ((⌊t⌋).toNat + 1)
  refine ⟨?_, ?_, ?_, ?_, ?_, ?_⟩
  · exact (pyIntQ_convex_bounds _ _ _ ha0 ha1 (by exact_mod_cast p1) (by exact_mod_cast p2)
      (by exact_mod_cast q1) (by exact_mod_cast q2)).1
  · exact (pyIntQ_convex_bounds _ _ _ ha0 ha1 (by exact_mod_cast p1) (by exact_mod_cast p2)
      (by exact_mod_cast q1) (by exact_mod_cast q2)).2
  · exact (pyIntQ_convex_bounds _ _ _ ha0 ha1 (by exact_mod_cast p3) (by exact_mod_cast p4)
      (by exact_mod_cast q3) (by exact_mod_cast q4)).1
  · exact (pyIntQ_convex_bounds _ _ _ ha0 ha1 (by exact_mod_cast p3) (by exact_mod_cast p4)
      (by exact_mod_cast q3) (by exact_mod_cast q4)).2
  · exact (pyIntQ_convex_bounds _ _ _ ha0 ha1 (by exact_mod_cast p5) (by exact_mod_cast p6)
      (by exact_mod_cast q5) (by exact_mod_cast q6)).1
  · exact (pyIntQ_convex_bounds _ _ _ ha0 ha1 (by exact_mod_cast p5) (by exact_mod_cast p6)
      (by exact_mod_cast q5) (by exact_mod_cast q6)).2

theorem paletteEntry_at_integer (colors : List (ℤ × ℤ × ℤ)) (num_colors i : ℕ) (m : ℤ)
    (ht : ((i : ℚ) * ((colors.length : ℚ) - 1)) / ((num_colors : ℚ) - 1) = (m : ℚ)) :
    paletteEntry colors num_colors i = colors.getD m.toNat (0, 0, 0) := by
  rw [paletteEntry]
  simp only [ht, Int.fract_intCast, Int.floor_intCast]
  have hcomp : ∀ u v : ℤ, (1 - (0 : ℚ)) * (u : ℚ) + 0 * (v : ℚ) = (u : ℚ) := by
    intro u v; ring
  rw [hcomp, hcomp, hcomp, pyIntQ_intCast, pyIntQ_intCast, pyIntQ_intCast]

/-- C5: for every anchor list of length at least 2 with components in
`[0, 255]`, `interpolate_colors` with `num_colors = 256` returns exactly 256
RGB triples; entry `i` is the truncation to integers of the linear
interpolation between `anchors[⌊t⌋]` and `anchors[⌊t⌋+1]` with
`t = i*(len-1)/255` and weight `fract t` (`paletteEntry`); every component is
in `[0, 255]`; entry 0 is the first anchor and entry 255 the last. -/
theorem claim_C5_interpolate (colors : List (ℤ × ℤ × ℤ)) (hL : 2 ≤ colors.length)
    (hc : ∀ c ∈ colors, rgbInRange c) :
    ∃ p, interpolate_colors colors 256 = some p ∧
      p.length = 256 ∧
      (∀ i, i < 256 → p[i]? = some (paletteEntry colors 256 i)) ∧
      (∀ c ∈ p, rgbInRange c) ∧
      p[0]? = colors[0]? ∧
      p[255]? = colors.getLast? := by
  have h0L : 0 < colors.length := by omega
  refine ⟨_, interpolate_colors_eq_map colors hL, by simp, ?_, ?_, ?_, ?_⟩
  · intro i hi
    rw [List.getElem?_map, List.getElem?_range hi, Option.map_some']
  · intro c hcmem
    rw [List.mem_map] at hcmem
    obtain ⟨i, -, rfl⟩ := hcmem
    exact paletteEntry_inRange colors hc 256 i
  · rw [List.getElem?_map, List.getElem?_range (by norm_num), Option.map_some']
    have he : paletteEntry colors 256 0 = colors.getD (0 : ℤ).toNat (0, 0, 0) :=
      paletteEntry_at_integer colors 256 0 0 (by push_cast; ring)
    rw [he, Int.toNat_zero, List.getD_eq_getElem _ _ h0L, List.getElem?_eq_getElem h0L]
  · rw [List.getElem?_map, List.getElem?_range (by norm_num), Option.map_some']
    have hm : (255 : ℚ) * ((colors.length : ℚ) - 1) / (((256 : ℕ) : ℚ) - 1) =
        (((colors.length : ℤ) - 1 : ℤ) : ℚ) := by
      push_cast
      rw [mul_div_assoc]
      norm_num
      rw [mul_comm, div_mul_cancel₀ _ (by norm_num : (255 : ℚ) ≠ 0)]
    have he : paletteEntry colors 256 255 =
        colors.getD ((colors.length : ℤ) - 1).toNat (0, 0, 0) :=
      paletteEntry_at_integer colors 256 255 ((colors.length : ℤ) - 1) (by push_cast at hm ⊢; exact hm)
    have hnat : ((colors.length : ℤ) - 1).toNat = colors.length - 1 := by omega
    have hlast : colors.length - 1 < colors.length := by omega
    rw [he, hnat, List.getD_eq_getElem _ _ hlast, List.getLast?_eq_getElem?,
      List.getElem?_eq_getElem hlast]

/-- Witness for C5 at a concrete two-anchor palette. -/
theorem claim_C5_interpolate_witness :
    2 ≤ ([(0, 0, 0), (255, 255, 255)] : List (ℤ × ℤ × ℤ)).length ∧
    ∃ p, interpolate_colors [(0, 0, 0), (255, 255, 255)] 256 = some p ∧
      p.length = 256 ∧
      (∀ i, i < 256 → p[i]? = some (paletteEntry [(0, 0, 0), (255, 255, 255)] 256 i)) ∧
      (∀ c ∈ p, rgbInRange c) ∧
      p[0]? = ([(0, 0, 0), (255, 255, 255)] : List (ℤ × ℤ × ℤ))[0]? ∧
      p[255]? = ([(0, 0, 0), (255, 255, 255)] : List (ℤ × ℤ × ℤ)).getLast? :=
  ⟨by norm_num,
    claim_C5_interpolate [(0, 0, 0), (255, 255, 255)] (by norm_num)
      (by intro c hcmem
          simp only [List.mem_cons, List.not_mem_nil, or_false] at hcmem
          rcases hcmem with rfl | rfl <;> exact ⟨by norm_num, by norm_num, by norm_num,
            by norm_num, by norm_num, by norm_num⟩)⟩

theorem pyIntQ_zero : pyIntQ 0 = 0 := by
  rw [pyIntQ_of_nonneg _ le_rfl, Int.floor_zero]

theorem interpolateColorsEntry_singleton (c : ℤ × ℤ × ℤ) (n i : ℕ) :
    interpolateColorsEntry [c] n i = some c := by
  have hidx : ((i : ℚ) * ((([c] : List (ℤ × ℤ × ℤ)).length : ℚ) - 1)) / ((n : ℚ) - 1) = 0 := by
    norm_num
  rw [interpolateColorsEntry, hidx]
  norm_num [pyIntQ_zero, pyIntQ_intCast, pyGet]

theorem interpolate_colors_singleton (c : ℤ × ℤ × ℤ) (n : ℕ) (hn : n ≠ 1) :
    interpolate_colors [c] n = some (List.replicate n c) := by
  rw [interpolate_colors, if_neg hn,
    mapM_option_const (List.range n) _ (fun _ => c)
      (fun i _ => interpolateColorsEntry_singleton c n i),
    List.map_const', List.length_range]

theorem interpolateColorsEntry_nil (n : ℕ) :
    interpolateColorsEntry ([] : List (ℤ × ℤ × ℤ)) n 0 = none := by
  have hidx : (((0 : ℕ) : ℚ) * ((([] : List (ℤ × ℤ × ℤ)).length : ℚ) - 1)) / ((n : ℚ) - 1)
      = 0 := by
    norm_num
  rw [interpolateColorsEntry, hidx]
  norm_num [pyIntQ_zero, pyGet]

/-- C4 (amended): what actually happens at construction time with malformed
configuration.  An empty anchor list fails inside `interpolate_colors`
(IndexError at the first `colors[...]` access), but an anchor list of length
1 does not fail — it produces 256 copies of the single colour.
`WaveformImage.__init__` with `image_width = 0` fails (ZeroDivisionError
computing `samples_per_pixel`).  `SpectrogramImage.__init__` with
`image_height = 0` does not fail — the bin-mapping loop never runs — while
`image_height = 1` does fail (ZeroDivisionError inside the loop). -/
theorem claim_C4_amended :
    interpolate_colors [] 256 = none ∧
    (∀ c : ℤ × ℤ × ℤ, interpolate_colors [c] 256 = some (List.replicate 256 c)) ∧
    (∀ nframes : ℕ, WaveformImage.init 0 nframes waveformDefaultColors = none) ∧
    (∀ W N : ℕ, (SpectrogramImage.init W 0 N spectrogramDefaultColors).isSome = true) ∧
    (∀ W N : ℕ, SpectrogramImage.init W 1 N spectrogramDefaultColors = none) := by
  refine ⟨?_, ?_, ?_, ?_, ?_⟩
  · rw [interpolate_colors, if_neg (by norm_num : (256 : ℕ) ≠ 1),
      show (256 : ℕ) = 255 + 1 from rfl, List.range_succ_eq_map, List.mapM_cons,
      interpolateColorsEntry_nil (255 + 1)]
    rfl
  · intro c
    exact interpolate_colors_singleton c 256 (by norm_num)
  · intro nframes
    cases h : interpolate_colors waveformDefaultColors 256 with
    | none => simp [WaveformImage.init, h]
    | some p => simp [WaveformImage.init, h]
  · intro W N
    rw [SpectrogramImage.init,
      interpolate_colors_eq_map spectrogramDefaultColors (by simp [spectrogramDefaultColors])]
    simp
  · intro W N
    rw [SpectrogramImage.init,
      interpolate_colors_eq_map spectrogramDefaultColors (by simp [spectrogramDefaultColors])]
    simp

/-- Counterexample to C4 as stated: a singleton anchor list (length `< 2`)
does not fail at construction, and a spectrogram with `image_height = 0`
does not fail at construction either. -/
theorem claim_C4_counterexample :
    (interpolate_colors [((50 : ℤ), (0 : ℤ), (200 : ℤ))] 256).isSome = true ∧
    (SpectrogramImage.init 10 0 16 spectrogramDefaultColors).isSome = true := by
  constructor
  · rw [interpolate_colors_singleton _ _ (by norm_num)]
    rfl
  · rw [SpectrogramImage.init,
      interpolate_colors_eq_map spectrogramDefaultColors (by simp [spectrogramDefaultColors])]
    simp

/-! Peak extraction (`WaveformImage.peaks`, lines 161-175) — claim C6. -/

/-- Maximum value of the non-empty sample list `a :: l` (`numpy.max`). -/
def listMaxQ (a : ℚ) (l : List ℚ) : ℚ := l.foldl max a

/-- Minimum value of the non-empty sample list `a :: l` (`numpy.min`). -/
def listMinQ (a : ℚ) (l : List ℚ) : ℚ := l.foldl min a

/-- First index attaining the maximum of `a :: l`, as `numpy.argmax`. -/
def numpyArgmax (a : ℚ) (l : List ℚ) : ℕ :=
  match l with
  | [] => 0
  | b :: m => if listMaxQ b m ≤ a then 0 else numpyArgmax b m + 1

/-- First index attaining the minimum of `a :: l`, as `numpy.argmin`. -/
def numpyArgmin (a : ℚ) (l : List ℚ) : ℕ :=
  match l with
  | [] => 0
  | b :: m => if a ≤ listMinQ b m then 0 else numpyArgmin b m + 1

/-- `WaveformImage.peaks` (lines 161-175) on the non-empty sample list
`a :: l`: look up `samples[argmax]` and `samples[argmin]` and return the pair
ordered by temporal occurrence (`(min, max)` when the minimum's index is
strictly smaller, else `(max, min)`). -/
def WaveformImage.peaks (a : ℚ) (l : List ℚ) : ℚ × ℚ :=
  let max_index := numpyArgmax a l
  let max_value := (a :: l).getD max_index 0
  let min_index := numpyArgmin a l
  let min_value := (a :: l).getD min_index 0
  if min_index < max_index then (min_value, max_value) else (max_value, min_value)

theorem listMaxQ_cons (a b : ℚ) (m : List ℚ) :
    listMaxQ a (b :: m) = max a (listMaxQ b m) := by
  show List.foldl max (max a b) m = max a (List.foldl max b m)
  induction m generalizing a b with
  | nil => rfl
  | cons c m ih =>
    show List.foldl max (max (max a b) c) m = max a (List.foldl max (max b c) m)
    rw [max_assoc]
    exact ih a (max b c)

theorem listMinQ_cons (a b : ℚ) (m : List ℚ) :
    listMinQ a (b :: m) = min a (listMinQ b m) := by
  show List.foldl min (min a b) m = min a (List.foldl min b m)
  induction m generalizing a b with
  | nil => rfl
  | cons c m ih =>
    show List.foldl min (min (min a b) c) m = min a (List.foldl min (min b c) m)
    rw [min_assoc]
    exact ih a (min b c)

theorem listMaxQ_mem (a : ℚ) (l : List ℚ) : listMaxQ a l ∈ a :: l := by
  induction l generalizing a with
  | nil => exact List.mem_singleton.mpr rfl
  | cons b m ih =>
    rw [listMaxQ_cons]
    rcases max_choice a (listMaxQ b m) with h | h
    · rw [h]; exact List.mem_cons_self _ _
    · rw [h]; exact List.mem_cons_of_mem a (ih b)

theorem listMinQ_mem (a : ℚ) (l : List ℚ) : listMinQ a l ∈ a :: l := by
  induction l generalizing a with
  | nil => exact List.mem_singleton.mpr rfl
  | cons b m ih =>
    rw [listMinQ_cons]
    rcases min_choice a (listMinQ b m) with h | h
    · rw [h]; exact List.mem_cons_self _ _
    · rw [h]; exact List.mem_cons_of_mem a (ih b)

theorem le_listMaxQ (a : ℚ) (l : List ℚ) : ∀ x ∈ a :: l, x ≤ listMaxQ a l := by
  induction l generalizing a with
  | nil =>
    intro x hx
    rw [List.mem_singleton.mp hx]
    exact le_refl _
  | cons b m ih =>
    intro x hx
    rw [listMaxQ_cons]
    rcases List.mem_cons.mp hx with rfl | hx
    · exact le_max_left _ _
    · exact le_trans (ih b x hx) (le_max_right _ _)

theorem listMinQ_le (a : ℚ) (l : List ℚ) : ∀ x ∈ a :: l, listMinQ a l ≤ x := by
  induction l generalizing a with
  | nil =>
    intro x hx
    rw [List.mem_singleton.mp hx]
    exact le_refl _
  | cons b m ih =>
    intro x hx
    rw [listMinQ_cons]
    rcases List.mem_cons.mp hx with rfl | hx
    · exact min_le_left _ _
    · exact le_trans (min_le_right _ _) (ih b x hx)

theorem getD_numpyArgmax (a : ℚ) (l : List ℚ) :
    (a :: l).getD (numpyArgmax a l) 0 = listMaxQ a l := by
  induction l generalizing a with
  | nil => rfl
  | cons b m ih =>
    rw [numpyArgmax, listMaxQ_cons]
    split
    · rename_i h
      rw [max_eq_left h]
      rfl
    · rename_i h
      rw [max_eq_right (le_of_lt (not_le.mp h))]
      exact ih b

theorem getD_numpyArgmin (a : ℚ) (l : List ℚ) :
    (a :: l).getD (numpyArgmin a l) 0 = listMinQ a l := by
  induction l generalizing a with
  | nil => rfl
  | cons b m ih =>
    rw [numpyArgmin, listMinQ_cons]
    split
    · rename_i h
      rw [min_eq_left h]
      rfl
    · rename_i h
      rw [min_eq_right (le_of_lt (not_le.mp h))]
      exact ih b

theorem numpyArgmax_eq_indexOf (a : ℚ) (l : List ℚ) :
    numpyArgmax a l = (a :: l).indexOf (listMaxQ a l) := by
  induction l generalizing a with
  | nil =>
    show 0 = [a].indexOf a
    rw [List.indexOf_cons_self]
  | cons b m ih =>
    rw [numpyArgmax, listMaxQ_cons]
    split
    · rename_i h
      rw [max_eq_left h, List.indexOf_cons_self]
    · rename_i h
      have hab : a < listMaxQ b m := not_le.mp h
      rw [max_eq_right hab.le,
        List.indexOf_cons_ne _ (ne_of_lt hab), ih b]

theorem numpyArgmin_eq_indexOf (a : ℚ) (l : List ℚ) :
    numpyArgmin a l = (a :: l).indexOf (listMinQ a l) := by
  induction l generalizing a with
  | nil =>
    show 0 = [a].indexOf a
    rw [List.indexOf_cons_self]
  | cons b m ih =>
    rw [numpyArgmin, listMinQ_cons]
    split
    · rename_i h
      rw [min_eq_left h, List.indexOf_cons_self]
    · rename_i h
      have hab : listMinQ b m < a := not_le.mp h
      rw [min_eq_right hab.le,
        List.indexOf_cons_ne _ (ne_of_lt hab).symm, ih b]

/-- C6: on every non-empty sample list, `peaks` returns a pair whose two
elements are the minimum and maximum of the input, ordered by temporal
occurrence: `(min, max)` when the first index of the minimum strictly
precedes the first index of the maximum, else `(max, min)`. -/
theorem claim_C6_peaks (a : ℚ) (l : List ℚ) :
    listMaxQ a l ∈ a :: l ∧ (∀ x ∈ a :: l, x ≤ listMaxQ a l) ∧
    listMinQ a l ∈ a :: l ∧ (∀ x ∈ a :: l, listMinQ a l ≤ x) ∧
    WaveformImage.peaks a l =
      if (a :: l).indexOf (listMinQ a l) < (a :: l).indexOf (listMaxQ a l)
      then (listMinQ a l, listMaxQ a l)
      else (listMaxQ a l, listMinQ a l) := by
  refine ⟨listMaxQ_mem a l, le_listMaxQ a l, listMinQ_mem a l, listMinQ_le a l, ?_⟩
  rw [WaveformImage.peaks, getD_numpyArgmax, getD_numpyArgmin,
    numpyArgmax_eq_indexOf, numpyArgmin_eq_indexOf]

/-- Witness for C6 at a concrete sample list. -/
theorem claim_C6_peaks_witness :
    WaveformImage.peaks 1 [3, 2] =
      if ([1, 3, 2] : List ℚ).indexOf (listMinQ 1 [3, 2]) <
          ([1, 3, 2] : List ℚ).indexOf (listMaxQ 1 [3, 2])
      then (listMinQ 1 [3, 2], listMaxQ 1 [3, 2])
      else (listMaxQ 1 [3, 2], listMinQ 1 [3, 2]) :=
  (claim_C6_peaks 1 [3, 2]).2.2.2.2

/-! Waveform antialiasing (`WaveformImage.draw_anti_aliased_pixels`, lines
199-226) — claims C3 and C10. -/

/-- One channel of the antialias blend (lines 209-211 and 222-224):
`int((1-alpha)*current + alpha*color)`. -/
def blendChannel (alpha : ℚ) (cur col : ℤ) : ℤ :=
  pyIntQ ((1 - alpha) * cur + alpha * col)

/-- The antialias blend on a whole RGB pixel. -/
def blendPixel (alpha : ℚ) (cur col : ℤ × ℤ × ℤ) : ℤ × ℤ × ℤ :=
  (blendChannel alpha cur.1 col.1, blendChannel alpha cur.2.1 col.2.1,
   blendChannel alpha cur.2.2 col.2.2)

/-- `WaveformImage.draw_anti_aliased_pixels` (lines 199-226) acting on one
pixel column, modelled as a function from row index to RGB value.  The first
conditional blends the colour into row `int(y_max) + 1` with weight
`alpha = y_max - int(y_max)` when `0 < alpha < 1` and the row is inside the
image; the second blends into row `int(y_min) - 1` with weight
`alpha = 1 - (y_min - int(y_min))` when `0 < alpha < 1` and the row index is
non-negative. -/
def draw_anti_aliased_pixels (image_height : ℕ) (y1 y2 : ℚ) (color : ℤ × ℤ × ℤ)
    (pixel : ℤ → ℤ × ℤ × ℤ) : ℤ → ℤ × ℤ × ℤ :=
  let y_max := max y1 y2
  let y_max_int := pyIntQ y_max
  let alpha := y_max - (y_max_int : ℚ)
  let p1 : ℤ → ℤ × ℤ × ℤ :=
    if 0 < alpha ∧ alpha < 1 ∧ y_max_int + 1 < (image_height : ℤ) then
      Function.update pixel (y_max_int + 1) (blendPixel alpha (pixel (y_max_int + 1)) color)
    else pixel
  let y_min := min y1 y2
  let y_min_int := pyIntQ y_min
  let alpha2 := 1 - (y_min - (y_min_int : ℚ))
  if 0 < alpha2 ∧ alpha2 < 1 ∧ 0 ≤ y_min_int - 1 then
    Function.update p1 (y_min_int - 1) (blendPixel alpha2 (p1 (y_min_int - 1)) color)
  else p1

theorem pyIntQ_mono (x y : ℚ) (h : x ≤ y) : pyIntQ x ≤ pyIntQ y := by
  rw [pyIntQ, pyIntQ]
  split_ifs with hx hy hy
  · exact neg_le_neg (Int.floor_le_floor (by linarith))
  · have h1 : 0 ≤ ⌊-x⌋ := Int.floor_nonneg.mpr (by linarith)
    have h2 : 0 ≤ ⌊y⌋ := Int.floor_nonneg.mpr (by linarith [not_lt.mp hy])
    omega
  · exfalso
    have h1 : 0 ≤ x := not_lt.mp hx
    linarith
  · exact Int.floor_le_floor h

theorem nonneg_of_pyIntQ_fract_pos (x : ℚ) (h : 0 < x - (pyIntQ x : ℚ)) : 0 ≤ x := by
  by_contra hneg
  push_neg at hneg
  rw [pyIntQ, if_pos hneg] at h
  have h2 : (⌊-x⌋ : ℚ) ≤ -x := Int.floor_le _
  push_cast at h
  linarith

/-- Closed form of `draw_anti_aliased_pixels` at an arbitrary row `j`: the row
`int(y_min) - 1` receives the blend with colour weight
`1 - fract(y_min)`, the row `int(y_max) + 1` receives the blend with colour
weight `fract(y_max)` (each under the code's guard), and every other row is
untouched.  The two target rows never coincide. -/
theorem draw_anti_aliased_pixels_apply (image_height : ℕ) (y1 y2 : ℚ)
    (color : ℤ × ℤ × ℤ) (pixel : ℤ → ℤ × ℤ × ℤ) (j : ℤ) :
    draw_anti_aliased_pixels image_height y1 y2 color pixel j =
      if j = pyIntQ (min y1 y2) - 1 ∧
          0 < min y1 y2 - (pyIntQ (min y1 y2) : ℚ) ∧
          min y1 y2 - (pyIntQ (min y1 y2) : ℚ) < 1 ∧
          0 ≤ pyIntQ (min y1 y2) - 1 then
        blendPixel (1 - (min y1 y2 - (pyIntQ (min y1 y2) : ℚ))) (pixel j) color
      else if j = pyIntQ (max y1 y2) + 1 ∧
          0 < max y1 y2 - (pyIntQ (max y1 y2) : ℚ) ∧
          max y1 y2 - (pyIntQ (max y1 y2) : ℚ) < 1 ∧
          pyIntQ (max y1 y2) + 1 < (image_height : ℤ) then
        blendPixel (max y1 y2 - (pyIntQ (max y1 y2) : ℚ)) (pixel j) color
      else pixel j := by
  simp only [draw_anti_aliased_pixels]
  set yM := max y1 y2 with hyM
  set ym := min y1 y2 with hym
  set iM := pyIntQ yM with hiM
  set im := pyIntQ ym with him
  have hmono : im ≤ iM := pyIntQ_mono ym yM min_le_max
  have hrows : im - 1 ≠ iM + 1 := by omega
  have hfm_iff : (0 < 1 - (ym - (im : ℚ)) ∧ 1 - (ym - (im : ℚ)) < 1 ∧ 0 ≤ im - 1) ↔
      (0 < ym - (im : ℚ) ∧ ym - (im : ℚ) < 1 ∧ 0 ≤ im - 1) := by
    constructor <;> rintro ⟨h1, h2, h3⟩ <;> exact ⟨by linarith, by linarith, h3⟩
  have hP1 : ∀ k : ℤ, k ≠ iM + 1 →
      (if 0 < yM - (iM : ℚ) ∧ yM - (iM : ℚ) < 1 ∧ iM + 1 < (image_height : ℤ) then
          Function.update pixel (iM + 1) (blendPixel (yM - (iM : ℚ)) (pixel (iM + 1)) color)
        else pixel) k = pixel k := by
    intro k hk
    split
    · exact Function.update_noteq hk _ _
    · rfl
  rcases eq_or_ne j (im - 1) with hj1 | hj1
  · subst hj1
    by_cases hC2 : 0 < 1 - (ym - (im : ℚ)) ∧ 1 - (ym - (im : ℚ)) < 1 ∧ 0 ≤ im - 1
    · rw [if_pos hC2, Function.update_same, hP1 _ hrows,
        if_pos ⟨rfl, (hfm_iff.mp hC2).1, (hfm_iff.mp hC2).2.1, (hfm_iff.mp hC2).2.2⟩]
    · rw [if_neg hC2, hP1 _ hrows,
        if_neg (fun hcon => hC2 (hfm_iff.mpr ⟨hcon.2.1, hcon.2.2.1, hcon.2.2.2⟩)),
        if_neg (fun hcon => hrows hcon.1)]
  · rcases eq_or_ne j (iM + 1) with hj2 | hj2
    · subst hj2
      have houter : ∀ p : ℤ → ℤ × ℤ × ℤ,
          (if 0 < 1 - (ym - (im : ℚ)) ∧ 1 - (ym - (im : ℚ)) < 1 ∧ 0 ≤ im - 1 then
              Function.update p (im - 1) (blendPixel (1 - (ym - (im : ℚ))) (p (im - 1)) color)
            else p) (iM + 1) = p (iM + 1) := by
        intro p
        split
        · exact Function.update_noteq (fun hcon => hrows hcon.symm) _ _
        · rfl
      rw [houter]
      have hnotmin : ¬(iM + 1 = im - 1 ∧ 0 < ym - (im : ℚ) ∧ ym - (im : ℚ) < 1 ∧
          0 ≤ im - 1) := fun hcon => hj1 hcon.1
      by_cases hC1 : 0 < yM - (iM : ℚ) ∧ yM - (iM : ℚ) < 1 ∧ iM + 1 < (image_height : ℤ)
      · rw [if_pos hC1, Function.update_same, if_neg hnotmin,
          if_pos ⟨rfl, hC1.1, hC1.2.1, hC1.2.2⟩]
      · rw [if_neg hC1, if_neg hnotmin,
          if_neg (show ¬(iM + 1 = iM + 1 ∧ 0 < yM - (iM : ℚ) ∧ yM - (iM : ℚ) < 1 ∧
            iM + 1 < (image_height : ℤ)) from
            fun hcon => hC1 ⟨hcon.2.1, hcon.2.2.1, hcon.2.2.2⟩)]
    · have houter : ∀ p : ℤ → ℤ × ℤ × ℤ,
          (if 0 < 1 - (ym - (im : ℚ)) ∧ 1 - (ym - (im : ℚ)) < 1 ∧ 0 ≤ im - 1 then
              Function.update p (im - 1) (blendPixel (1 - (ym - (im : ℚ))) (p (im - 1)) color)
            else p) j = p j := by
        intro p
        split
        · exact Function.update_noteq hj1 _ _
        · rfl
      rw [houter, hP1 _ hj2, if_neg (fun hcon => hj1 hcon.1), if_neg (fun hcon => hj2 hcon.1)]

theorem pyIntQ_cast_le (x : ℚ) (h : 0 ≤ x) : (pyIntQ x : ℚ) ≤ x := by
  rw [pyIntQ_of_nonneg x h]
  exact Int.floor_le x

theorem pyIntQ_nonneg (x : ℚ) (h : 0 ≤ x) : 0 ≤ pyIntQ x := by
  rw [pyIntQ_of_nonneg x h]
  exact Int.floor_nonneg.mpr h

/-- C3 (amended): in the antialiasing step, for each of the two y-coordinates
of a column whose fractional part (`y - int(y)`) lies strictly between 0 and
1 and whose target row passes the code's bound check, the column's colour is
blended into the adjacent pixel one row further from center — row
`int(y_max) + 1` below the maximum point with the weight given to the colour
equal to the fractional part, and row `int(y_min) - 1` above the minimum
point with the weight given to the colour equal to ONE MINUS the fractional
part (the fractional part weights the pixel's existing value there); no
other pixels are modified. -/
theorem claim_C3_antialias_amended (image_height : ℕ) (y1 y2 : ℚ)
    (color : ℤ × ℤ × ℤ) (pixel : ℤ → ℤ × ℤ × ℤ) (j : ℤ) :
    draw_anti_aliased_pixels image_height y1 y2 color pixel j =
      if j = pyIntQ (min y1 y2) - 1 ∧
          0 < min y1 y2 - (pyIntQ (min y1 y2) : ℚ) ∧
          min y1 y2 - (pyIntQ (min y1 y2) : ℚ) < 1 ∧
          0 ≤ pyIntQ (min y1 y2) - 1 then
        blendPixel (1 - (min y1 y2 - (pyIntQ (min y1 y2) : ℚ))) (pixel j) color
      else if j = pyIntQ (max y1 y2) + 1 ∧
          0 < max y1 y2 - (pyIntQ (max y1 y2) : ℚ) ∧
          max y1 y2 - (pyIntQ (max y1 y2) : ℚ) < 1 ∧
          pyIntQ (max y1 y2) + 1 < (image_height : ℤ) then
        blendPixel (max y1 y2 - (pyIntQ (max y1 y2) : ℚ)) (pixel j) color
      else pixel j :=
  draw_anti_aliased_pixels_apply image_height y1 y2 color pixel j

theorem pyIntQ_eval (x : ℚ) (z : ℤ) (h0 : 0 ≤ x) (h1 : (z : ℚ) ≤ x)
    (h2 : x < (z : ℚ) + 1) : pyIntQ x = z := by
  rw [pyIntQ_of_nonneg x h0]
  rw [Int.floor_eq_iff]
  · exact ⟨h1, by exact_mod_cast h2⟩

theorem blendPixel_zero_hundred (a : ℚ) (z : ℤ) (h0 : 0 ≤ a * 100)
    (h1 : (z : ℚ) ≤ a * 100) (h2 : a * 100 < (z : ℚ) + 1) :
    blendPixel a ((0 : ℤ), (0 : ℤ), (0 : ℤ)) (100, 100, 100) = (z, z, z) := by
  have hval : pyIntQ ((1 - a) * ((0 : ℤ) : ℚ) + a * ((100 : ℤ) : ℚ)) = z := by
    rw [show ((1 - a) * ((0 : ℤ) : ℚ) + a * ((100 : ℤ) : ℚ)) = a * 100 by push_cast; ring]
    exact pyIntQ_eval _ z h0 h1 h2
  simp only [blendPixel, blendChannel]
  rw [hval]

/-- Counterexample to C3 as stated: with `y1 = y2 = 9/4` (fractional part
`1/4`) on an all-black column of a height-10 image with colour
`(100, 100, 100)`, the code sets row `int(y_min) - 1 = 1` to `(75, 75, 75)`
(colour weight `1 - 1/4 = 3/4`), while blending with the fractional part as
the colour weight, as the claim states, would give `(25, 25, 25)`. -/
theorem claim_C3_counterexample :
    draw_anti_aliased_pixels 10 (9 / 4) (9 / 4) (100, 100, 100) (fun _ => (0, 0, 0)) 1 =
      (75, 75, 75) ∧
    blendPixel ((9 / 4 : ℚ) - (pyIntQ (9 / 4) : ℚ)) ((0 : ℤ), (0 : ℤ), (0 : ℤ))
      (100, 100, 100) = (25, 25, 25) ∧
    ((75, 75, 75) : ℤ × ℤ × ℤ) ≠ (25, 25, 25) := by
  have hpy : pyIntQ (9 / 4 : ℚ) = 2 :=
    pyIntQ_eval _ 2 (by norm_num) (by norm_num) (by norm_num)
  refine ⟨?_, ?_, by decide⟩
  · rw [draw_anti_aliased_pixels_apply, min_self, max_self, hpy]
    have hcond : (1 : ℤ) = 2 - 1 ∧ 0 < (9 / 4 : ℚ) - ((2 : ℤ) : ℚ) ∧
        (9 / 4 : ℚ) - ((2 : ℤ) : ℚ) < 1 ∧ 0 ≤ (2 : ℤ) - 1 :=
      ⟨rfl, by norm_num, by norm_num, by norm_num⟩
    rw [if_pos hcond]
    show blendPixel (1 - ((9 / 4 : ℚ) - ((2 : ℤ) : ℚ))) ((0 : ℤ), (0 : ℤ), (0 : ℤ))
      (100, 100, 100) = (75, 75, 75)
    rw [show (1 - ((9 / 4 : ℚ) - ((2 : ℤ) : ℚ))) = 3 / 4 by push_cast; ring]
    exact blendPixel_zero_hundred (3 / 4) 75 (by norm_num) (by norm_num) (by norm_num)
  · rw [hpy, show ((9 / 4 : ℚ) - ((2 : ℤ) : ℚ)) = 1 / 4 by push_cast; ring]
    exact blendPixel_zero_hundred (1 / 4) 25 (by norm_num) (by norm_num) (by norm_num)

/-- C10 (amended): provided `min(y1, y2) < image_height + 1` — in particular
whenever both y-coordinates lie inside the image — `draw_anti_aliased_pixels`
never touches a pixel outside rows `[0, image_height)`: rows outside keep
their previous value, and the rows inside depend only on the previous values
of rows inside.  (Without the proviso the min-side blend can write at row
`int(y_min) - 1 ≥ image_height`: see the counterexample.) -/
theorem claim_C10_bounds_amended (image_height : ℕ) (y1 y2 : ℚ)
    (color : ℤ × ℤ × ℤ) (pixel : ℤ → ℤ × ℤ × ℤ)
    (hmin : min y1 y2 < (image_height : ℚ) + 1) :
    (∀ j : ℤ, j < 0 ∨ (image_height : ℤ) ≤ j →
      draw_anti_aliased_pixels image_height y1 y2 color pixel j = pixel j) ∧
    (∀ q : ℤ → ℤ × ℤ × ℤ,
      (∀ i : ℤ, 0 ≤ i → i < (image_height : ℤ) → pixel i = q i) →
      ∀ j : ℤ, 0 ≤ j → j < (image_height : ℤ) →
        draw_anti_aliased_pixels image_height y1 y2 color pixel j =
          draw_anti_aliased_pixels image_height y1 y2 color q j) := by
  constructor
  · intro j hj
    rw [draw_anti_aliased_pixels_apply]
    rw [if_neg, if_neg]
    · rintro ⟨hjeq, hf0, -, hH⟩
      have hyM0 : 0 ≤ max y1 y2 := nonneg_of_pyIntQ_fract_pos _ hf0
      have hiM0 : 0 ≤ pyIntQ (max y1 y2) := pyIntQ_nonneg _ hyM0
      rcases hj with hj | hj <;> omega
    · rintro ⟨hjeq, hf0, -, him1⟩
      have hym0 : 0 ≤ min y1 y2 := nonneg_of_pyIntQ_fract_pos _ hf0
      have hle : (pyIntQ (min y1 y2) : ℚ) ≤ min y1 y2 := pyIntQ_cast_le _ hym0
      have him : pyIntQ (min y1 y2) ≤ (image_height : ℤ) := by
        by_contra hcon
        push_neg at hcon
        have : ((image_height : ℤ) + 1 : ℚ) ≤ (pyIntQ (min y1 y2) : ℚ) := by
          exact_mod_cast hcon
        push_cast at this
        linarith
      rcases hj with hj | hj <;> omega
  · intro q hpq j hj0 hjH
    rw [draw_anti_aliased_pixels_apply, draw_anti_aliased_pixels_apply]
    split_ifs <;> rw [hpq j hj0 hjH]

/-- Witness for the amended C10 at a concrete input. -/
theorem claim_C10_bounds_amended_witness :
    (min (5 / 2 : ℚ) (15 / 2) < (10 : ℚ) + 1) ∧
    draw_anti_aliased_pixels 10 (5 / 2) (15 / 2) (100, 100, 100)
      (fun _ => (0, 0, 0)) 12 = (fun _ : ℤ => ((0 : ℤ), (0 : ℤ), (0 : ℤ))) 12 :=
  ⟨by norm_num,
    (claim_C10_bounds_amended 10 (5 / 2) (15 / 2) (100, 100, 100) (fun _ => (0, 0, 0))
      (by norm_num)).1 12 (Or.inr (by norm_num))⟩

/-- Counterexample to C10 as stated: with `y1 = y2 = 23/2` on a height-10
image, the min-side blend fires at row `int(23/2) - 1 = 10`, which is outside
`[0, 10)` — the antialiasing step modifies a pixel outside the image. -/
theorem claim_C10_counterexample :
    ((10 : ℤ) < 0 ∨ (10 : ℤ) ≤ 10) ∧
    draw_anti_aliased_pixels 10 (23 / 2) (23 / 2) (100, 100, 100)
      (fun _ => (0, 0, 0)) 10 = (50, 50, 50) ∧
    draw_anti_aliased_pixels 10 (23 / 2) (23 / 2) (100, 100, 100)
      (fun _ => (0, 0, 0)) 10 ≠ (0, 0, 0) := by
  have hpy : pyIntQ (23 / 2 : ℚ) = 11 :=
    pyIntQ_eval _ 11 (by norm_num) (by norm_num) (by norm_num)
  have heq : draw_anti_aliased_pixels 10 (23 / 2) (23 / 2) (100, 100, 100)
      (fun _ => (0, 0, 0)) 10 = (50, 50, 50) := by
    rw [draw_anti_aliased_pixels_apply, min_self, max_self, hpy]
    have hcond : (10 : ℤ) = 11 - 1 ∧ 0 < (23 / 2 : ℚ) - ((11 : ℤ) : ℚ) ∧
        (23 / 2 : ℚ) - ((11 : ℤ) : ℚ) < 1 ∧ 0 ≤ (11 : ℤ) - 1 :=
      ⟨rfl, by norm_num, by norm_num, by norm_num⟩
    rw [if_pos hcond]
    show blendPixel (1 - ((23 / 2 : ℚ) - ((11 : ℤ) : ℚ))) ((0 : ℤ), (0 : ℤ), (0 : ℤ))
      (100, 100, 100) = (50, 50, 50)
    rw [show (1 - ((23 / 2 : ℚ) - ((11 : ℤ) : ℚ))) = 1 / 2 by push_cast; ring]
    exact blendPixel_zero_hundred (1 / 2) 50 (by norm_num) (by norm_num) (by norm_num)
  refine ⟨Or.inr le_rfl, heq, ?_⟩
  rw [heq]
  decide

/-! Spectrogram bin mapping and column drawing (claims C8, C2). -/

theorem pyInt_of_nonneg (x : ℝ) (h : 0 ≤ x) : pyInt x = ⌊x⌋ :=
  if_neg (not_lt.mpr h)

theorem binValue_nonneg (image_height fft_size y : ℕ) : 0 ≤ binValue image_height fft_size y := by
  rw [binValue]
  apply mul_nonneg _ (Nat.cast_nonneg _)
  apply div_nonneg _ (by norm_num)
  exact (Real.rpow_pos_of_pos (by norm_num) _).le

theorem binValue_mono (image_height fft_size : ℕ) (hH : 2 ≤ image_height)
    (y y' : ℕ) (h : y ≤ y') :
    binValue image_height fft_size y ≤ binValue image_height fft_size y' := by
  rw [binValue, binValue]
  apply mul_le_mul_of_nonneg_right _ (Nat.cast_nonneg _)
  apply div_le_div_of_nonneg_right ?_ (by norm_num)
  rw [Real.rpow_le_rpow_left_iff (by norm_num : (1 : ℝ) < 10)]
  apply add_le_add_left
  apply mul_le_mul_of_nonneg_right
  · have hpos : (0 : ℝ) < (image_height : ℝ) - 1 := by
      have h2 : (2 : ℝ) ≤ (image_height : ℝ) := by exact_mod_cast hH
      linarith
    rw [div_le_div_iff_of_pos_right hpos]
    exact_mod_cast h
  · have := Real.logb_lt_logb (b := 10) (by norm_num) (by norm_num : (0 : ℝ) < 100)
      (by norm_num : (100 : ℝ) < 22050)
    linarith

/-- C8: for every `image_height ≥ 2` and `fft_size`, the precomputed
`y_to_bin` mapping is monotonically non-decreasing in the stored integer bin
index as the row increases, contains entries only for rows whose fractional
bin value is strictly below `fft_size/2` (Python integer division), and pairs
each stored bin `⌊bin⌋` with the weight `255 * fract(bin)`. -/
theorem claim_C8_binmapping (image_height fft_size : ℕ) (hH : 2 ≤ image_height) :
    List.Pairwise (fun p q : ℤ × ℝ => p.1 ≤ q.1) (spectrogramYToBin image_height fft_size) ∧
    (∀ pr ∈ spectrogramYToBin image_height fft_size, ∃ y, y < image_height ∧
      binValue image_height fft_size y < ((fft_size / 2 : ℕ) : ℝ) ∧
      pr = (⌊binValue image_height fft_size y⌋,
        255 * Int.fract (binValue image_height fft_size y))) := by
  constructor
  · rw [spectrogramYToBin, List.pairwise_filterMap]
    apply (List.pairwise_lt_range image_height).imp
    intro y y' hyy p hp q hq
    by_cases hy : binValue image_height fft_size y < ((fft_size / 2 : ℕ) : ℝ)
    · by_cases hy2 : binValue image_height fft_size y' < ((fft_size / 2 : ℕ) : ℝ)
      · simp only [hy, if_pos, if_true, Option.mem_def, Option.some_inj] at hp
        simp only [hy2, if_pos, if_true, Option.mem_def, Option.some_inj] at hq
        rw [← hp, ← hq]
        show pyInt (binValue image_height fft_size y) ≤ pyInt (binValue image_height fft_size y')
        rw [pyInt_of_nonneg _ (binValue_nonneg _ _ _), pyInt_of_nonneg _ (binValue_nonneg _ _ _)]
        exact Int.floor_le_floor (binValue_mono image_height fft_size hH y y' hyy.le)
      · simp only [hy2, if_neg, if_false, Option.mem_def] at hq
        exact absurd hq (by simp)
    · simp only [hy, if_neg, if_false, Option.mem_def] at hp
      exact absurd hp (by simp)
  · intro pr hpr
    rw [spectrogramYToBin, List.mem_filterMap] at hpr
    obtain ⟨y, hy, hsome⟩ := hpr
    rw [List.mem_range] at hy
    by_cases hcond : binValue image_height fft_size y < ((fft_size / 2 : ℕ) : ℝ)
    · rw [if_pos hcond, Option.some_inj] at hsome
      refine ⟨y, hy, hcond, ?_⟩
      rw [← hsome, pyInt_of_nonneg _ (binValue_nonneg _ _ _)]
      have hfract : binValue image_height fft_size y -
          (⌊binValue image_height fft_size y⌋ : ℝ) = Int.fract _ := rfl
      rw [hfract]
      rw [mul_comm]
    · rw [if_neg hcond] at hsome
      exact absurd hsome (by simp)

/-- Witness for C8 at a concrete configuration. -/
theorem claim_C8_binmapping_witness :
    2 ≤ 2 ∧ List.Pairwise (fun p q : ℤ × ℝ => p.1 ≤ q.1) (spectrogramYToBin 2 8) :=
  ⟨le_refl 2, (claim_C8_binmapping 2 8 (by norm_num)).1⟩

/-- `SpectrogramImage.draw_spectrum` (lines 290-295): for each precomputed
`(index, alpha)` pair, append `int((255.0 - alpha)*spectrum[index] +
alpha*spectrum[index + 1])` to the flat pixel buffer, then append 0 for each
remaining row up to `image_height`.  The spectrum column is modelled as a
function from bin index to value, the buffer as the list appended to. -/
noncomputable def draw_spectrum (image_height : ℕ) (y_to_bin : List (ℤ × ℝ))
    (spectrum : ℤ → ℝ) (pixels : List ℤ) : List ℤ :=
  (pixels ++ y_to_bin.map
      (fun pr => pyInt ((255 - pr.2) * spectrum pr.1 + pr.2 * spectrum (pr.1 + 1))))
    ++ List.replicate (image_height - y_to_bin.length) 0

/-- The column loop of `create_spectrogram_png` (lines 311-320): one
`draw_spectrum` call per column `x < image_width`, accumulating into the flat
pixel buffer (`spectra x` is the dB spectrum of column `x`). -/
noncomputable def drawColumns (image_width image_height : ℕ) (y_to_bin : List (ℤ × ℝ))
    (spectra : ℕ → ℤ → ℝ) : List ℤ :=
  (List.range image_width).foldl
    (fun pixels x => draw_spectrum image_height y_to_bin (spectra x) pixels) []

theorem spectrogramYToBin_length_le (image_height fft_size : ℕ) :
    (spectrogramYToBin image_height fft_size).length ≤ image_height := by
  rw [spectrogramYToBin]
  exact le_trans (List.length_filterMap_le _ _) (le_of_eq (List.length_range _))

theorem draw_spectrum_length (image_height : ℕ) (y_to_bin : List (ℤ × ℝ))
    (hlen : y_to_bin.length ≤ image_height) (spectrum : ℤ → ℝ) (pixels : List ℤ) :
    (draw_spectrum image_height y_to_bin spectrum pixels).length =
      pixels.length + image_height := by
  rw [draw_spectrum, List.length_append, List.length_append, List.length_map,
    List.length_replicate]
  omega

theorem drawColumns_length (image_width image_height : ℕ) (y_to_bin : List (ℤ × ℝ))
    (hlen : y_to_bin.length ≤ image_height) (spectra : ℕ → ℤ → ℝ) :
    (drawColumns image_width image_height y_to_bin spectra).length =
      image_width * image_height := by
  rw [drawColumns]
  have hgen : ∀ (l : List ℕ) (acc : List ℤ),
      (l.foldl (fun pixels x => draw_spectrum image_height y_to_bin (spectra x) pixels)
        acc).length = acc.length + l.length * image_height := by
    intro l
    induction l with
    | nil => intro acc; simp
    | cons a t ih =>
      intro acc
      rw [List.foldl_cons, ih, draw_spectrum_length image_height y_to_bin hlen]
      rw [List.length_cons]
      ring
  rw [hgen, List.length_range, List.length_nil, zero_add]

/-- C2 (amended): for every column, `draw_spectrum` appends, for each
precomputed mapping entry `(bin, alpha)` in order, the pixel intensity
`int((255 - alpha)*spectrum[bin] + alpha*spectrum[bin+1])` — Python `int`,
i.e. truncation (floor for these non-negative values), not rounding to the
nearest integer — then appends 0 for every remaining row up to
`image_height`; hence each call appends exactly `image_height` values and
after `image_width` columns the flat buffer holds
`image_width * image_height` entries. -/
theorem claim_C2_draw_spectrum_amended (image_height fft_size : ℕ) (spectrum : ℤ → ℝ)
    (pixels : List ℤ) (image_width : ℕ) (spectra : ℕ → ℤ → ℝ) :
    (∀ i, i < image_height →
      (draw_spectrum image_height (spectrogramYToBin image_height fft_size) spectrum [])[i]? =
        if h : i < (spectrogramYToBin image_height fft_size).length then
          some (pyInt
            ((255 - ((spectrogramYToBin image_height fft_size).get ⟨i, h⟩).2) *
                spectrum ((spectrogramYToBin image_height fft_size).get ⟨i, h⟩).1 +
              ((spectrogramYToBin image_height fft_size).get ⟨i, h⟩).2 *
                spectrum (((spectrogramYToBin image_height fft_size).get ⟨i, h⟩).1 + 1)))
        else some 0) ∧
    (draw_spectrum image_height (spectrogramYToBin image_height fft_size) spectrum pixels).length
        = pixels.length + image_height ∧
    (drawColumns image_width image_height (spectrogramYToBin image_height fft_size) spectra).length
        = image_width * image_height := by
  refine ⟨?_, draw_spectrum_length image_height _
      (spectrogramYToBin_length_le image_height fft_size) spectrum pixels,
    drawColumns_length image_width image_height _
      (spectrogramYToBin_length_le image_height fft_size) spectra⟩
  intro i hi
  rw [draw_spectrum, List.nil_append]
  by_cases h : i < (spectrogramYToBin image_height fft_size).length
  · rw [dif_pos h,
      List.getElem?_append_left (by rw [List.length_map]; exact h),
      List.getElem?_map, List.getElem?_eq_getElem h, Option.map_some']
    rfl
  · rw [dif_neg h]
    push_neg at h
    rw [List.getElem?_append_right (by rw [List.length_map]; exact h), List.length_map,
      List.getElem?_replicate_of_lt (by omega)]

/-- Witness for the amended C2 at a concrete configuration. -/
theorem claim_C2_draw_spectrum_amended_witness :
    (draw_spectrum 2 (spectrogramYToBin 2 8) (fun _ => 0) []).length =
      ([] : List ℤ).length + 2 :=
  (claim_C2_draw_spectrum_amended 2 8 (fun _ => 0) [] 3 (fun _ _ => 0)).2.1

/-- The dB spectrum column used in the C2 counterexample: value 1 at bin 1,
0 elsewhere (all values lie in `[0, 1]`, as dB spectrum entries do). -/
noncomputable def spectrumEx : ℤ → ℝ := fun j => if j = 1 then 1 else 0

theorem pyInt_eval (x : ℝ) (z : ℤ) (h0 : 0 ≤ x) (h1 : (z : ℝ) ≤ x)
    (h2 : x < (z : ℝ) + 1) : pyInt x = z := by
  rw [pyInt_of_nonneg x h0, Int.floor_eq_iff]
  exact ⟨h1, by exact_mod_cast h2⟩

theorem binValue_2_8_0 : binValue 2 8 0 = 100 / 22050 * 5 := by
  rw [binValue]
  norm_num

theorem binValue_2_8_1 : binValue 2 8 1 = 5 := by
  rw [binValue]
  norm_num

theorem spectrogramYToBin_2_8 : spectrogramYToBin 2 8 = [(0, 850 / 147)] := by
  rw [spectrogramYToBin, show List.range 2 = [0, 1] from rfl]
  rw [List.filterMap_cons, List.filterMap_cons, List.filterMap_nil]
  rw [binValue_2_8_0, binValue_2_8_1]
  have hpy : pyInt ((100 : ℝ) / 22050 * 5) = 0 :=
    pyInt_eval _ 0 (by norm_num) (by norm_num) (by norm_num)
  rw [if_pos (by norm_num : (100 : ℝ) / 22050 * 5 < ((8 / 2 : ℕ) : ℝ)),
    if_neg (by norm_num : ¬((5 : ℝ) < ((8 / 2 : ℕ) : ℝ))), hpy]
  norm_num

/-- Counterexample to C2 as stated: with `image_height = 2`, `fft_size = 8`
the mapping is `[(0, 850/147)]` (`850/147 ≈ 5.78`); on the spectrum with
value 1 at bin 1 and 0 at bin 0 the code appends
`int(850/147) = 5`, whereas the claimed `round(...)` would append 6. -/
theorem claim_C2_counterexample :
    spectrogramYToBin 2 8 = [(0, 850 / 147)] ∧
    draw_spectrum 2 (spectrogramYToBin 2 8) spectrumEx [] = [5, 0] ∧
    round ((255 - (850 / 147 : ℝ)) * spectrumEx 0 + (850 / 147) * spectrumEx 1) = 6 := by
  have hs0 : spectrumEx 0 = 0 := if_neg (by norm_num)
  have hs1 : spectrumEx 1 = 1 := if_pos rfl
  refine ⟨spectrogramYToBin_2_8, ?_, ?_⟩
  · rw [draw_spectrum, spectrogramYToBin_2_8]
    rw [List.map_cons, List.map_nil]
    have hval : pyInt ((255 - (850 / 147 : ℝ)) * spectrumEx 0 +
        (850 / 147) * spectrumEx (0 + 1)) = 5 := by
      rw [show ((0 : ℤ) + 1) = 1 from rfl, hs0, hs1]
      rw [show (255 - (850 / 147 : ℝ)) * 0 + (850 / 147) * 1 = 850 / 147 by ring]
      exact pyInt_eval _ 5 (by norm_num) (by norm_num) (by norm_num)
    rw [hval]
    rfl
  · rw [hs0, hs1]
    rw [show (255 - (850 / 147 : ℝ)) * 0 + (850 / 147) * 1 = 850 / 147 by ring]
    rw [round_eq, show (850 / 147 : ℝ) + 1 / 2 = 1847 / 294 by ring]
    exact Int.floor_eq_iff.mpr ⟨by norm_num, by norm_num⟩

end TimeSide
